import Mathlib

/-!
Verification development for the photobooth-s3-sync daemon (`src/main.py`).

The SQLite-backed `FileTracker` is embedded as an association list from
file path to record, mirroring the `files` table (primary key `filepath`).
Filesystem effects (stat results, content hashes, upload outcomes, HTTP
refresh outcomes) are passed in explicitly as parameters, so every
operation of the tracker and of the sync worker becomes a pure function
on the store state.
-/

namespace PhotoSync

/-- One row of the `files` table: `size`, `hash`, `uploaded_at` (nullable),
`mtime`.  Timestamps are abstracted as `Nat`, mtimes as `Int` (only their
decidable equality is used by the code). -/
structure FileRecord where
  size : Nat
  hash : String
  uploadedAt : Option Nat
  mtime : Int
  deriving Repr, DecidableEq

/-- The `files` table: rows keyed by `filepath` (primary key, so reachable
stores have pairwise distinct keys). -/
abbrev Store := List (String × FileRecord)

/-- `SELECT ... FROM files WHERE filepath = ?` (point lookup on the
primary key). -/
def lookup : Store → String → Option FileRecord
  | [], _ => none
  | (p, r) :: rest, fp => if p = fp then some r else lookup rest fp

/-- The primary-key invariant of the `files` table: paths are distinct. -/
def keysNodup (db : Store) : Prop := (db.map Prod.fst).Nodup

instance (db : Store) : Decidable (keysNodup db) := by
  unfold keysNodup; infer_instance

/-- `INSERT OR REPLACE INTO files ... VALUES (?, ?, ?, NULL, ?)`:
any existing row for the path is replaced by the new row. -/
def upsert (db : Store) (fp : String) (r : FileRecord) : Store :=
  db.filter (fun kv => decide (kv.1 ≠ fp)) ++ [(fp, r)]

/-- `UPDATE files SET <field> = ? WHERE filepath = ?`: apply `f` to the
row (if any) whose key is `fp`. -/
def updateWhere (db : Store) (fp : String) (f : FileRecord → FileRecord) : Store :=
  db.map (fun kv => if kv.1 = fp then (kv.1, f kv.2) else kv)

/-- `UPDATE files SET mtime = ? WHERE filepath = ?`
(the touch-without-modify branch of `track_file`). -/
def setMtime (db : Store) (fp : String) (mt : Int) : Store :=
  updateWhere db fp (fun r => { r with mtime := mt })

/-- `FileTracker.mark_uploaded`:
`UPDATE files SET uploaded_at = ? WHERE filepath = ?`.
The update is unconditional on the row's content fields. -/
def mark_uploaded (db : Store) (fp : String) (t : Nat) : Store :=
  updateWhere db fp (fun r => { r with uploadedAt := some t })

/-- `FileTracker.mark_all_uploaded`: `executemany` of the same `UPDATE`
with one shared timestamp. -/
def mark_all_uploaded (db : Store) (fps : List String) (t : Nat) : Store :=
  fps.foldl (fun d fp => mark_uploaded d fp t) db

/-- Result of `FileTracker.track_file`: the returned Bool, the store
afterwards, and whether `_file_hash` was invoked (the hash is streamed
from disk, so this flag is the observable cost of the call). -/
structure TrackResult where
  changed : Bool
  db : Store
  hashComputed : Bool
  deriving Repr, DecidableEq

/-- `FileTracker.track_file` on a path whose stat gives `(sz, mt)` and
whose content hashes to `fh`.  `fileExists` is the `os.path.exists`
check; when the file is missing the function returns `False` without
touching the store.  Branch order follows the source: fast path on
`(size, mtime)`, then hash computation, then the content-match check,
then `INSERT OR REPLACE` with `uploaded_at = NULL`. -/
def track_file (db : Store) (fp : String) (fileExists : Bool)
    (sz : Nat) (mt : Int) (fh : String) : TrackResult :=
  if !fileExists then ⟨false, db, false⟩
  else
    match lookup db fp with
    | some row =>
      if row.size = sz ∧ row.mtime = mt then ⟨false, db, false⟩
      else if row.size = sz ∧ row.hash = fh then ⟨false, setMtime db fp mt, true⟩
      else ⟨true, upsert db fp ⟨sz, fh, none, mt⟩, true⟩
    | none => ⟨true, upsert db fp ⟨sz, fh, none, mt⟩, true⟩

/-- Lexicographic comparison of character lists (codepoint order; on valid
UTF-8 this agrees with the byte order SQLite's default BINARY collation
uses for `ORDER BY` on a TEXT column). -/
def charListLe : List Char → List Char → Bool
  | [], _ => true
  | _ :: _, [] => false
  | a :: as, b :: bs => if a = b then charListLe as bs else decide (a < b)

/-- Lexicographic comparison of paths, as `ORDER BY filepath` sorts them. -/
def strLeb (a b : String) : Bool := charListLe a.toList b.toList

/-- `FileTracker.get_pending`:
`SELECT filepath FROM files WHERE uploaded_at IS NULL ORDER BY filepath`. -/
def get_pending (db : Store) : List String :=
  List.insertionSort (fun a b => strLeb a b = true)
    ((db.filter (fun kv => decide (kv.2.uploadedAt = none))).map Prod.fst)

/-- Result of `FileTracker.get_stats`. -/
structure Stats where
  total : Nat
  uploaded : Nat
  pending : Nat
  deriving Repr, DecidableEq

/-- `FileTracker.get_stats`: `COUNT(*)`, `COUNT(uploaded_at)` (non-NULL
count), and their difference. -/
def get_stats (db : Store) : Stats :=
  { total := db.length
    uploaded := (db.filter (fun kv => decide (kv.2.uploadedAt ≠ none))).length
    pending := db.length - (db.filter (fun kv => decide (kv.2.uploadedAt ≠ none))).length }

/-- Observable actions of `SimpleSync._upload_file` and the surrounding
`_uploader_thread` body, in program order. -/
inductive Action where
  | s3Upload
  | refreshAttempt (ok : Bool)
  | markUploadedAct (fp : String)
  | skipMissing (fp : String)
  deriving Repr, DecidableEq

/-- `SimpleSync._upload_file`: attempt the S3 put (`uploadOk` is its
outcome); on success attempt the refresh POST inside its own
`try/except` (`refreshOk` is its outcome, any failure only logged),
then return `True`.  If the put raises, the outer `except` returns
`False` and no refresh is attempted.  Result: returned Bool and the
trace of actions. -/
def upload_file (uploadOk refreshOk : Bool) : Bool × List Action :=
  if uploadOk then (true, [Action.s3Upload, Action.refreshAttempt refreshOk])
  else (false, [Action.s3Upload])

/-- One iteration of the per-file body of `SimpleSync._uploader_thread`:
skip a vanished file, otherwise run `_upload_file` and, only when it
returned `True`, call `tracker.mark_uploaded` (at time `t`).  Returns
the store afterwards and the action trace. -/
def processPending (db : Store) (fp : String)
    (fileExists uploadOk refreshOk : Bool) (t : Nat) : Store × List Action :=
  if !fileExists then (db, [Action.skipMissing fp])
  else
    let r := upload_file uploadOk refreshOk
    if r.1 then (mark_uploaded db fp t, r.2 ++ [Action.markUploadedAct fp])
    else (db, r.2)

/-- Helper: does the trace contain a refresh attempt that no
`mark_uploaded` call precedes?  `seenMark` carries whether a mark has
already occurred. -/
def refreshAfterMarkAux : Bool → List Action → Bool
  | _, [] => true
  | seenMark, Action.refreshAttempt _ :: rest =>
      seenMark && refreshAfterMarkAux seenMark rest
  | _, Action.markUploadedAct _ :: rest => refreshAfterMarkAux true rest
  | seenMark, _ :: rest => refreshAfterMarkAux seenMark rest

/-- True iff every refresh attempt in the trace is preceded by a
`mark_uploaded` call. -/
def marksBeforeRefreshes (tr : List Action) : Bool :=
  refreshAfterMarkAux false tr

/-- `os.path.join(a, b)` for one join step on POSIX: an absolute `b`
wins; otherwise a separator is inserted unless `a` is empty or already
ends with one. -/
def osPathJoin (a b : String) : String :=
  if b.toList.head? = some '/' then b
  else if a = "" ∨ a.toList.getLast? = some '/' then a ++ b
  else a ++ "/" ++ b

/-- `pathlib.Path(fp).name`: drop trailing separators, then take the
characters after the last `/` — the last nonempty component, `""` if
there is none. -/
def pathName (fp : String) : String :=
  String.mk
    (((fp.toList.reverse.dropWhile (fun c => c == '/')).takeWhile
      (fun c => !(c == '/'))).reverse)

/-- The object key `SimpleSync._upload_file` passes to S3:
`os.path.join(self.prefix, Path(filepath).name)`. -/
def s3Key (pfx : String) (fp : String) : String :=
  osPathJoin pfx (pathName fp)

/-- `filename.lower().endswith(".jpg")` (ASCII lowering; the scanned
names are ASCII datestamps and camera filenames). -/
def isJpgName (s : String) : Bool :=
  List.isSuffixOf ['.', 'j', 'p', 'g'] (s.toList.map Char.toLower)

/-- `re.match(r"^[0-9]{4}-[0-9]{2}-[0-9]{2}$", item)`: the name is
exactly four digits, dash, two digits, dash, two digits. -/
def matchesDateFolder (s : String) : Bool :=
  match s.toList with
  | [a, b, c, d, e, f, g, h, i, j] =>
    a.isDigit && b.isDigit && c.isDigit && d.isDigit && (e == '-') &&
    f.isDigit && g.isDigit && (h == '-') && i.isDigit && j.isDigit
  | _ => false

/-- One entry of `os.listdir(watch_folder)` as `startup_scan` sees it:
its name, whether it is a directory, and the result of listing it
(`Except.error` models `os.listdir(folder_path)` raising, e.g. on an
unreadable directory). -/
structure DirEntry where
  name : String
  isDir : Bool
  listing : Except String (List String)
  deriving Repr

/-- The file-collection loop of `SimpleSync.startup_scan` (lines
209-220): for each entry that is a directory matching the date pattern,
list it and keep the `.jpg` files.  There is no `try/except` around the
inner `os.listdir`, so a listing error propagates out of the loop and
aborts the scan, discarding everything collected so far. -/
def collectFiles (watchFolder : String) : List DirEntry → Except String (List String)
  | [] => Except.ok []
  | e :: es =>
    if e.isDir && matchesDateFolder e.name then
      match e.listing with
      | Except.error msg => Except.error msg
      | Except.ok names =>
        match collectFiles watchFolder es with
        | Except.error msg => Except.error msg
        | Except.ok rest =>
          Except.ok
            (((names.filter isJpgName).map
              (fun n => osPathJoin (osPathJoin watchFolder e.name) n)) ++ rest)
    else collectFiles watchFolder es

/-- Store states reachable from a fresh database through the tracker's
mutating operations. -/
inductive Reachable : Store → Prop where
  | empty : Reachable []
  | track (fp : String) (ex : Bool) (sz : Nat) (mt : Int) (fh : String) {db : Store} :
      Reachable db → Reachable (track_file db fp ex sz mt fh).db
  | mark (fp : String) (t : Nat) {db : Store} :
      Reachable db → Reachable (mark_uploaded db fp t)
  | markAll (fps : List String) (t : Nat) {db : Store} :
      Reachable db → Reachable (mark_all_uploaded db fps t)

/-! ### Helper lemmas about the store -/

theorem lookup_mem {db : Store} {fp : String} {r : FileRecord}
    (h : lookup db fp = some r) : (fp, r) ∈ db := by
  induction db with
  | nil => simp [lookup] at h
  | cons kv rest ih =>
    obtain ⟨p, q⟩ := kv
    by_cases hp : p = fp
    · subst hp
      simp [lookup] at h
      subst h
      exact List.mem_cons_self _ _
    · simp [lookup, hp] at h
      exact List.mem_cons_of_mem _ (ih h)

theorem mem_lookup {db : Store} {fp : String} {r : FileRecord}
    (hnd : keysNodup db) (h : (fp, r) ∈ db) : lookup db fp = some r := by
  induction db with
  | nil => simp at h
  | cons kv rest ih =>
    obtain ⟨p, q⟩ := kv
    unfold keysNodup at hnd
    simp only [List.map_cons, List.nodup_cons] at hnd
    rcases List.mem_cons.mp h with h1 | h1
    · rw [Prod.ext_iff] at h1
      obtain ⟨h1a, h1b⟩ := h1
      simp only [lookup]
      rw [if_pos h1a.symm]
      exact congrArg some h1b.symm
    · by_cases hp : p = fp
      · exfalso
        apply hnd.1
        subst hp
        exact List.mem_map_of_mem Prod.fst h1
      · simp only [lookup]
        rw [if_neg hp]
        exact ih hnd.2 h1

theorem lookup_updateWhere (db : Store) (fp : String) (f : FileRecord → FileRecord) :
    lookup (updateWhere db fp f) fp = (lookup db fp).map f := by
  unfold updateWhere
  induction db with
  | nil => rfl
  | cons kv rest ih =>
    obtain ⟨p, r⟩ := kv
    simp only [List.map_cons]
    by_cases hp : p = fp
    · subst hp
      rw [if_pos rfl]
      simp [lookup]
    · rw [if_neg hp]
      simp only [lookup]
      rw [if_neg hp, if_neg hp]
      exact ih

theorem lookup_updateWhere_ne (db : Store) (fp q : String) (f : FileRecord → FileRecord)
    (hq : q ≠ fp) :
    lookup (updateWhere db fp f) q = lookup db q := by
  unfold updateWhere
  induction db with
  | nil => rfl
  | cons kv rest ih =>
    obtain ⟨p, r⟩ := kv
    simp only [List.map_cons]
    by_cases hp : p = fp
    · subst hp
      rw [if_pos rfl]
      simp only [lookup]
      rw [if_neg (fun h => hq h.symm), if_neg (fun h => hq h.symm)]
      exact ih
    · rw [if_neg hp]
      simp only [lookup]
      by_cases hpq : p = q
      · rw [if_pos hpq, if_pos hpq]
      · rw [if_neg hpq, if_neg hpq]
        exact ih

theorem lookup_filter_ne_self (db : Store) (fp : String) :
    lookup (db.filter (fun kv => decide (kv.1 ≠ fp))) fp = none := by
  induction db with
  | nil => rfl
  | cons kv rest ih =>
    obtain ⟨p, r⟩ := kv
    simp only [List.filter_cons]
    by_cases hp : p = fp
    · subst hp
      simp only [decide_eq_true_eq]
      rw [if_neg (fun h => h rfl)]
      exact ih
    · simp only [decide_eq_true_eq]
      rw [if_pos hp]
      simp only [lookup]
      rw [if_neg hp]
      exact ih

theorem lookup_filter_ne (db : Store) (fp q : String) (hq : q ≠ fp) :
    lookup (db.filter (fun kv => decide (kv.1 ≠ fp))) q = lookup db q := by
  induction db with
  | nil => rfl
  | cons kv rest ih =>
    obtain ⟨p, r⟩ := kv
    simp only [List.filter_cons]
    by_cases hp : p = fp
    · subst hp
      simp only [decide_eq_true_eq]
      rw [if_neg (fun h => h rfl)]
      rw [ih]
      simp only [lookup]
      rw [if_neg (fun h => hq h.symm)]
    · simp only [decide_eq_true_eq]
      rw [if_pos hp]
      simp only [lookup]
      by_cases hpq : p = q
      · rw [if_pos hpq, if_pos hpq]
      · rw [if_neg hpq, if_neg hpq]
        exact ih

theorem lookup_append_right {l1 : Store} (l2 : Store) (fp : String)
    (h : lookup l1 fp = none) : lookup (l1 ++ l2) fp = lookup l2 fp := by
  induction l1 with
  | nil => rfl
  | cons kv rest ih =>
    obtain ⟨p, r⟩ := kv
    by_cases hp : p = fp
    · simp [lookup, hp] at h
    · simp only [lookup, if_neg hp] at h
      simp only [List.cons_append, lookup]
      rw [if_neg hp]
      exact ih h

theorem lookup_append_left {l1 : Store} (l2 : Store) (fp : String)
    {r : FileRecord} (h : lookup l1 fp = some r) :
    lookup (l1 ++ l2) fp = some r := by
  induction l1 with
  | nil => simp [lookup] at h
  | cons kv rest ih =>
    obtain ⟨p, rr⟩ := kv
    simp only [List.cons_append, lookup]
    by_cases hp : p = fp
    · simp only [lookup, if_pos hp] at h
      rw [if_pos hp]
      exact h
    · simp only [lookup, if_neg hp] at h
      rw [if_neg hp]
      exact ih h

theorem lookup_upsert_self (db : Store) (fp : String) (r : FileRecord) :
    lookup (upsert db fp r) fp = some r := by
  unfold upsert
  rw [lookup_append_right _ _ (lookup_filter_ne_self db fp)]
  simp [lookup]

theorem lookup_upsert_ne (db : Store) (fp q : String) (r : FileRecord)
    (hq : q ≠ fp) : lookup (upsert db fp r) q = lookup db q := by
  unfold upsert
  cases hcase : lookup db q with
  | some rr =>
    have h1 : lookup (db.filter (fun kv => decide (kv.1 ≠ fp))) q = some rr := by
      rw [lookup_filter_ne db fp q hq]
      exact hcase
    rw [lookup_append_left _ _ h1]
  | none =>
    have h1 : lookup (db.filter (fun kv => decide (kv.1 ≠ fp))) q = none := by
      rw [lookup_filter_ne db fp q hq]
      exact hcase
    rw [lookup_append_right _ _ h1]
    simp only [lookup]
    rw [if_neg (fun h => hq h.symm)]

theorem keys_updateWhere (db : Store) (fp : String) (f : FileRecord → FileRecord) :
    (updateWhere db fp f).map Prod.fst = db.map Prod.fst := by
  unfold updateWhere
  induction db with
  | nil => rfl
  | cons kv rest ih =>
    obtain ⟨p, r⟩ := kv
    by_cases hp : p = fp
    · simp [hp, ih]
    · simp [hp, ih]

theorem keysNodup_mark_uploaded {db : Store} (hnd : keysNodup db)
    (fp : String) (t : Nat) : keysNodup (mark_uploaded db fp t) := by
  unfold keysNodup mark_uploaded
  rw [keys_updateWhere]
  exact hnd

theorem keysNodup_setMtime {db : Store} (hnd : keysNodup db)
    (fp : String) (mt : Int) : keysNodup (setMtime db fp mt) := by
  unfold keysNodup setMtime
  rw [keys_updateWhere]
  exact hnd

theorem keysNodup_upsert {db : Store} (hnd : keysNodup db)
    (fp : String) (r : FileRecord) : keysNodup (upsert db fp r) := by
  unfold keysNodup upsert
  rw [List.map_append]
  apply List.Nodup.append
  · exact List.Nodup.sublist ((List.filter_sublist db).map Prod.fst) hnd
  · simp
  · intro x hx hy
    simp at hy
    subst hy
    rcases List.mem_map.mp hx with ⟨kv, hkv, hfst⟩
    have := (List.mem_filter.mp hkv).2
    rw [decide_eq_true_eq] at this
    exact this hfst

theorem keysNodup_mark_all {db : Store} (hnd : keysNodup db)
    (fps : List String) (t : Nat) : keysNodup (mark_all_uploaded db fps t) := by
  induction fps generalizing db with
  | nil => exact hnd
  | cons fp rest ih =>
    exact ih (keysNodup_mark_uploaded hnd fp t)

theorem keysNodup_track_file {db : Store} (hnd : keysNodup db)
    (fp : String) (ex : Bool) (sz : Nat) (mt : Int) (fh : String) :
    keysNodup (track_file db fp ex sz mt fh).db := by
  unfold track_file
  rcases ex with _ | _
  · simpa using hnd
  · simp only [Bool.not_true, Bool.false_eq_true, if_false]
    cases lookup db fp with
    | none => exact keysNodup_upsert hnd fp _
    | some row =>
      dsimp only
      by_cases h1 : row.size = sz ∧ row.mtime = mt
      · rw [if_pos h1]
        exact hnd
      · rw [if_neg h1]
        by_cases h2 : row.size = sz ∧ row.hash = fh
        · rw [if_pos h2]
          exact keysNodup_setMtime hnd fp mt
        · rw [if_neg h2]
          exact keysNodup_upsert hnd fp _

theorem reachable_keysNodup {db : Store} (h : Reachable db) : keysNodup db := by
  induction h with
  | empty => exact List.nodup_nil
  | track fp ex sz mt fh _ ih => exact keysNodup_track_file ih fp ex sz mt fh
  | mark fp t _ ih => exact keysNodup_mark_uploaded ih fp t
  | markAll fps t _ ih => exact keysNodup_mark_all ih fps t

/-! ### Order lemmas for the pending listing -/

theorem charListLe_total : ∀ as bs, charListLe as bs = true ∨ charListLe bs as = true := by
  intro as
  induction as with
  | nil => intro bs; left; rfl
  | cons a as ih =>
    intro bs
    cases bs with
    | nil => right; rfl
    | cons b bs2 =>
      simp only [charListLe]
      by_cases hab : a = b
      · subst hab
        rw [if_pos rfl, if_pos rfl]
        exact ih bs2
      · rw [if_neg hab, if_neg (Ne.symm hab)]
        rcases lt_or_gt_of_ne hab with h | h
        · left; exact decide_eq_true h
        · right; exact decide_eq_true h

theorem charListLe_trans :
    ∀ as bs cs, charListLe as bs = true → charListLe bs cs = true →
      charListLe as cs = true := by
  intro as
  induction as with
  | nil => intro bs cs _ _; rfl
  | cons a as ih =>
    intro bs cs h1 h2
    cases bs with
    | nil => simp [charListLe] at h1
    | cons b bs2 =>
      cases cs with
      | nil => simp [charListLe] at h2
      | cons c cs2 =>
        simp only [charListLe] at h1 h2 ⊢
        by_cases hab : a = b
        · subst hab
          rw [if_pos rfl] at h1
          by_cases hbc : a = c
          · subst hbc
            rw [if_pos rfl] at h2 ⊢
            exact ih bs2 cs2 h1 h2
          · rw [if_neg hbc] at h2 ⊢
            exact h2
        · rw [if_neg hab] at h1
          have hab2 : a < b := of_decide_eq_true h1
          by_cases hbc : b = c
          · have hac : a ≠ c := by rw [← hbc]; exact hab
            rw [if_neg hac]
            exact decide_eq_true (hbc ▸ hab2)
          · rw [if_neg hbc] at h2
            have hbc2 : b < c := of_decide_eq_true h2
            have hac2 : a < c := lt_trans hab2 hbc2
            rw [if_neg (ne_of_lt hac2)]
            exact decide_eq_true hac2

instance : IsTotal String (fun a b => strLeb a b = true) :=
  ⟨fun a b => charListLe_total a.toList b.toList⟩

instance : IsTrans String (fun a b => strLeb a b = true) :=
  ⟨fun a b c => charListLe_trans a.toList b.toList c.toList⟩

theorem get_pending_sorted (db : Store) :
    List.Sorted (fun a b => strLeb a b = true) (get_pending db) :=
  List.sorted_insertionSort _ _

theorem get_pending_perm (db : Store) :
    (get_pending db).Perm
      ((db.filter (fun kv => decide (kv.2.uploadedAt = none))).map Prod.fst) :=
  List.perm_insertionSort _ _

theorem mem_get_pending (db : Store) (p : String) :
    p ∈ get_pending db ↔ ∃ r, (p, r) ∈ db ∧ r.uploadedAt = none := by
  rw [(get_pending_perm db).mem_iff]
  constructor
  · intro h
    rcases List.mem_map.mp h with ⟨kv, hkv, hfst⟩
    rcases List.mem_filter.mp hkv with ⟨hmem, hcond⟩
    rw [decide_eq_true_eq] at hcond
    refine ⟨kv.2, ?_, hcond⟩
    have : kv = (p, kv.2) := by
      rw [← hfst]
    rw [← this]
    exact hmem
  · intro h
    rcases h with ⟨r, hmem, hup⟩
    apply List.mem_map.mpr
    refine ⟨(p, r), List.mem_filter.mpr ⟨hmem, ?_⟩, rfl⟩
    rw [decide_eq_true_eq]
    exact hup

theorem get_pending_nodup {db : Store} (hnd : keysNodup db) :
    (get_pending db).Nodup := by
  rw [(get_pending_perm db).nodup_iff]
  exact List.Nodup.sublist ((List.filter_sublist db).map Prod.fst) hnd

theorem length_filter_not_add {α : Type} (p : α → Bool) (l : List α) :
    (l.filter p).length + (l.filter (fun a => !(p a))).length = l.length := by
  induction l with
  | nil => rfl
  | cons a rest ih =>
    simp only [List.filter_cons]
    cases hpa : p a
    · simp only [Bool.false_eq_true, if_false, hpa, Bool.not_false, if_true,
        List.length_cons]
      omega
    · simp only [if_true, hpa, Bool.not_true, Bool.false_eq_true, if_false,
        List.length_cons]
      omega

/-! ### Claim theorems -/

/-- C2 (confirmed): when a record exists and its stored `(size, mtime)`
exactly equal the file's current stat values, `track_file` returns
`False` (no change detected), computes no content hash, and leaves the
store untouched. -/
theorem c2_fast_path_skips_hash (db : Store) (fp : String) (r : FileRecord)
    (sz : Nat) (mt : Int) (fh : String)
    (hrow : lookup db fp = some r) (hsz : r.size = sz) (hmt : r.mtime = mt) :
    track_file db fp true sz mt fh = ⟨false, db, false⟩ := by
  unfold track_file
  simp only [Bool.not_true, Bool.false_eq_true, if_false]
  rw [hrow]
  dsimp only
  rw [if_pos ⟨hsz, hmt⟩]

/-- Witness for C2 at a concrete store: a record with matching size and
mtime is skipped without hashing even though the supplied hash differs. -/
theorem c2_witness :
    track_file [("d/a.jpg", ⟨5, "h", none, 10⟩)] "d/a.jpg" true 5 10 "zzz"
      = ⟨false, [("d/a.jpg", ⟨5, "h", none, 10⟩)], false⟩ :=
  c2_fast_path_skips_hash _ "d/a.jpg" ⟨5, "h", none, 10⟩ 5 10 "zzz" rfl rfl rfl

/-- C4 (confirmed): when a record exists, the stored size and the newly
computed hash match the current file, but the mtime differs, `track_file`
returns `False` after computing the hash and updates only the `mtime`
field; size, hash and `uploaded_at` are unchanged, and other paths are
untouched. -/
theorem c4_metadata_drift_updates_only_mtime (db : Store) (fp : String)
    (r : FileRecord) (sz : Nat) (mt : Int) (fh : String)
    (hrow : lookup db fp = some r) (hsz : r.size = sz) (hh : r.hash = fh)
    (hmt : r.mtime ≠ mt) :
    track_file db fp true sz mt fh = ⟨false, setMtime db fp mt, true⟩ ∧
    lookup (setMtime db fp mt) fp = some { r with mtime := mt } ∧
    ∀ q, q ≠ fp → lookup (setMtime db fp mt) q = lookup db q := by
  refine ⟨?_, ?_, ?_⟩
  · unfold track_file
    simp only [Bool.not_true, Bool.false_eq_true, if_false]
    rw [hrow]
    dsimp only
    rw [if_neg (fun h => hmt h.2), if_pos ⟨hsz, hh⟩]
  · unfold setMtime
    rw [lookup_updateWhere, hrow]
    rfl
  · intro q hq
    unfold setMtime
    exact lookup_updateWhere_ne db fp q _ hq

/-- Witness for C4: touching a file (same size, same hash, new mtime)
only refreshes the stored mtime; the upload timestamp survives. -/
theorem c4_witness :
    lookup (setMtime [("a", ⟨5, "h", some 3, 10⟩)] "a" 99) "a"
      = some ⟨5, "h", some 3, 99⟩ :=
  (c4_metadata_drift_updates_only_mtime [("a", ⟨5, "h", some 3, 10⟩)] "a"
    ⟨5, "h", some 3, 10⟩ 5 99 "h" rfl rfl rfl (by decide)).2.1

/-- C3, counterexample to the claim as stated: a file whose content (hash)
differs from the stored record but whose size and mtime coincide with the
stored values takes the fast path: `track_file` returns `False`, leaves the
record unchanged, and the stale `uploaded_at` is not cleared. -/
theorem c3_counterexample :
    (track_file [("f", ⟨5, "h1", some 7, 10⟩)] "f" true 5 10 "h2").changed = false ∧
    (track_file [("f", ⟨5, "h1", some 7, 10⟩)] "f" true 5 10 "h2").db
      = [("f", ⟨5, "h1", some 7, 10⟩)] ∧
    ("h2" : String) ≠ "h1" := by
  refine ⟨rfl, rfl, by decide⟩

/-- C3 as amended (proved): for a path with no record, or with a record
whose stored `(size, mtime)` do not both match the stat values and whose
stored `(size, hash)` do not both match the new content, `track_file`
returns `True` and atomically upserts `(size, mtime, hash,
uploaded_at = NULL)` — clearing any prior `uploaded_at` — leaving every
other path untouched. -/
theorem c3_changed_upserts_pending (db : Store) (fp : String)
    (sz : Nat) (mt : Int) (fh : String)
    (h : lookup db fp = none ∨
      ∃ r, lookup db fp = some r ∧ ¬(r.size = sz ∧ r.mtime = mt) ∧
        ¬(r.size = sz ∧ r.hash = fh)) :
    track_file db fp true sz mt fh = ⟨true, upsert db fp ⟨sz, fh, none, mt⟩, true⟩ ∧
    lookup (upsert db fp ⟨sz, fh, none, mt⟩) fp = some ⟨sz, fh, none, mt⟩ ∧
    ∀ q, q ≠ fp → lookup (upsert db fp ⟨sz, fh, none, mt⟩) q = lookup db q := by
  refine ⟨?_, lookup_upsert_self db fp _, fun q hq => lookup_upsert_ne db fp q _ hq⟩
  unfold track_file
  simp only [Bool.not_true, Bool.false_eq_true, if_false]
  rcases h with hnone | ⟨r, hrow, h1, h2⟩
  · rw [hnone]
  · rw [hrow]
    dsimp only
    rw [if_neg h1, if_neg h2]

/-- Witness for C3 (amended): re-observing an uploaded file with new
content yields a `True` decision and a fresh pending record. -/
theorem c3_witness :
    lookup (upsert [("f", ⟨5, "h1", some 7, 10⟩)] "f" ⟨6, "h2", none, 11⟩) "f"
      = some ⟨6, "h2", none, 11⟩ :=
  (c3_changed_upserts_pending [("f", ⟨5, "h1", some 7, 10⟩)] "f" 6 11 "h2"
    (Or.inr ⟨⟨5, "h1", some 7, 10⟩, rfl, by decide, by decide⟩)).2.1

/-- C1, counterexample to the claim as stated: track a file with content
`h1`, re-track it after its content changed to `h2` (the record correctly
returns to pending), then run `mark_uploaded` for the finished upload of
the old `h1` bytes.  The mark is not discarded: the record ends with
`uploaded_at = 100` while holding hash `h2`, which is not the content
that was transmitted. -/
theorem c1_counterexample :
    lookup (mark_uploaded
        (track_file (track_file [] "f" true 3 1 "h1").db "f" true 3 2 "h2").db
        "f" 100) "f"
      = some ⟨3, "h2", some 100, 2⟩ ∧ ("h2" : String) ≠ "h1" := by
  refine ⟨rfl, by decide⟩

/-- C1 as amended (proved): `mark_uploaded` is unconditional — it sets
`uploaded_at` on the path's record regardless of whether the stored
`(size, hash)` still are the content that was uploaded, leaving the other
fields and all other paths unchanged.  The spec's guarded-mark semantics
is not implemented. -/
theorem c1_mark_uploaded_unconditional (db : Store) (fp : String) (t : Nat) :
    lookup (mark_uploaded db fp t) fp
      = (lookup db fp).map (fun r => { r with uploadedAt := some t }) ∧
    ∀ q, q ≠ fp → lookup (mark_uploaded db fp t) q = lookup db q :=
  ⟨lookup_updateWhere db fp _, fun q hq => lookup_updateWhere_ne db fp q _ hq⟩

/-- Witness for C1 (amended): marking a record whose hash no longer is the
uploaded content still stamps it. -/
theorem c1_witness :
    lookup (mark_uploaded [("f", ⟨3, "h2", none, 2⟩)] "f" 100) "f"
      = some ⟨3, "h2", some 100, 2⟩ :=
  ((c1_mark_uploaded_unconditional [("f", ⟨3, "h2", none, 2⟩)] "f" 100).1).trans rfl

/-- C5 (confirmed): under the primary-key invariant, `get_pending` is
lexicographically sorted, lists each path at most once however often it
was tracked, and contains exactly the paths whose record has
`uploaded_at IS NULL`; re-tracking a recorded path with unchanged stat
values (re-enqueuing a queued path) is a no-op on the store. -/
theorem c5_get_pending_characterization (db : Store) (hnd : keysNodup db) :
    List.Sorted (fun a b => strLeb a b = true) (get_pending db) ∧
    (get_pending db).Nodup ∧
    (∀ p, p ∈ get_pending db ↔ ∃ r, lookup db p = some r ∧ r.uploadedAt = none) ∧
    ∀ fp r fh, lookup db fp = some r →
      (track_file db fp true r.size r.mtime fh).db = db := by
  refine ⟨get_pending_sorted db, get_pending_nodup hnd, ?_, ?_⟩
  · intro p
    rw [mem_get_pending]
    constructor
    · rintro ⟨r, hmem, hup⟩
      exact ⟨r, mem_lookup hnd hmem, hup⟩
    · rintro ⟨r, hlook, hup⟩
      exact ⟨r, lookup_mem hlook, hup⟩
  · intro fp r fh hrow
    unfold track_file
    simp only [Bool.not_true, Bool.false_eq_true, if_false]
    rw [hrow]
    dsimp only
    rw [if_pos ⟨rfl, rfl⟩]

/-- Witness for C5 at a concrete two-row store (one uploaded, one
pending): its pending listing is sorted. -/
theorem c5_witness :
    List.Sorted (fun a b => strLeb a b = true)
      (get_pending [("b", ⟨1, "x", none, 0⟩), ("a", ⟨2, "y", some 5, 0⟩)]) :=
  (c5_get_pending_characterization
    [("b", ⟨1, "x", none, 0⟩), ("a", ⟨2, "y", some 5, 0⟩)] (by decide)).1

/-- C10 (confirmed): `get_stats` satisfies `total = uploaded + pending`,
`uploaded` counts exactly the records with non-null `uploaded_at`,
`uploaded ≤ total`, and `pending` equals the length of `get_pending`. -/
theorem c10_stats_partition (db : Store) :
    (get_stats db).total = (get_stats db).uploaded + (get_stats db).pending ∧
    (get_stats db).uploaded ≤ (get_stats db).total ∧
    (get_stats db).uploaded
      = (db.filter (fun kv => decide (kv.2.uploadedAt ≠ none))).length ∧
    (get_stats db).pending = (get_pending db).length := by
  have hle : (db.filter (fun kv => decide (kv.2.uploadedAt ≠ none))).length
      ≤ db.length := List.length_filter_le _ _
  have hnotnot : (db.filter
      (fun kv => !(decide (kv.2.uploadedAt ≠ none))))
      = db.filter (fun kv => decide (kv.2.uploadedAt = none)) := by
    apply List.filter_congr
    intro kv _
    rw [decide_not, Bool.not_not]
  have hsplit := length_filter_not_add
    (fun kv : String × FileRecord => decide (kv.2.uploadedAt ≠ none)) db
  rw [hnotnot] at hsplit
  have hpend : (get_pending db).length
      = (db.filter (fun kv => decide (kv.2.uploadedAt = none))).length := by
    rw [(get_pending_perm db).length_eq, List.length_map]
  have h1 : (get_stats db).total = db.length := rfl
  have h2 : (get_stats db).uploaded
      = (db.filter (fun kv => decide (kv.2.uploadedAt ≠ none))).length := rfl
  have h3 : (get_stats db).pending
      = db.length - (db.filter (fun kv => decide (kv.2.uploadedAt ≠ none))).length := rfl
  refine ⟨?_, ?_, rfl, ?_⟩
  · rw [h1, h2, h3]
    omega
  · rw [h1, h2]
    exact hle
  · rw [h3, hpend]
    omega

theorem pathName_no_leading_slash (fp : String) :
    ¬ (pathName fp).toList.head? = some '/' := by
  unfold pathName
  intro h
  have h2 : ((fp.toList.reverse.dropWhile (fun c => c == '/')).takeWhile
      (fun c => !(c == '/'))).reverse.head? = some '/' := h
  have hmem : '/' ∈ ((fp.toList.reverse.dropWhile (fun c => c == '/')).takeWhile
      (fun c => !(c == '/'))).reverse := by
    cases hr : ((fp.toList.reverse.dropWhile (fun c => c == '/')).takeWhile
        (fun c => !(c == '/'))).reverse with
    | nil => rw [hr] at h2; simp at h2
    | cons a t =>
      rw [hr] at h2
      simp only [List.head?_cons, Option.some.injEq] at h2
      rw [h2]
      exact List.mem_cons_self _ _
  rw [List.mem_reverse] at hmem
  have := List.mem_takeWhile_imp hmem
  simp at this

/-- C6, counterexample to the claim as stated: on a successful upload the
worker attempts the downstream refresh notification inside `_upload_file`
and only afterwards, back in `_uploader_thread`, calls `mark_uploaded` —
so no `mark_uploaded` precedes the refresh attempt in the trace. -/
theorem c6_counterexample :
    (processPending [("f", ⟨3, "h", none, 1⟩)] "f" true true true 50).2
      = [Action.s3Upload, Action.refreshAttempt true, Action.markUploadedAct "f"] ∧
    marksBeforeRefreshes
      (processPending [("f", ⟨3, "h", none, 1⟩)] "f" true true true 50).2 = false := by
  exact ⟨rfl, rfl⟩

/-- C6 as amended (proved): on a successful upload the worker attempts the
refresh notification after the S3 put and before `mark_uploaded`; the
refresh outcome (`refreshOk`) affects neither the resulting store — the
record is marked uploaded either way — nor the upload's success. -/
theorem c6_refresh_between_upload_and_mark (db : Store) (fp : String)
    (t : Nat) (refreshOk : Bool) :
    processPending db fp true true refreshOk t
      = (mark_uploaded db fp t,
         [Action.s3Upload, Action.refreshAttempt refreshOk,
          Action.markUploadedAct fp]) := by
  rfl

/-- C7 (confirmed): when the upload attempt fails, the store is left
exactly as it was — `mark_uploaded` is never reached, the record is not
deleted — and the path is still listed by `get_pending` for the next poll
cycle. -/
theorem c7_failed_upload_leaves_pending (db : Store) (fp : String)
    (r : FileRecord) (refreshOk : Bool) (t : Nat)
    (hrow : lookup db fp = some r) (hpend : r.uploadedAt = none) :
    (processPending db fp true false refreshOk t).1 = db ∧
    (processPending db fp true false refreshOk t).2 = [Action.s3Upload] ∧
    fp ∈ get_pending (processPending db fp true false refreshOk t).1 := by
  refine ⟨rfl, rfl, ?_⟩
  rw [show (processPending db fp true false refreshOk t).1 = db from rfl]
  exact (mem_get_pending db fp).mpr ⟨r, lookup_mem hrow, hpend⟩

/-- Witness for C7: a concrete pending record survives a failed attempt
and is still pending. -/
theorem c7_witness :
    "f" ∈ get_pending
      (processPending [("f", ⟨3, "h", none, 1⟩)] "f" true false true 9).1 :=
  (c7_failed_upload_leaves_pending [("f", ⟨3, "h", none, 1⟩)] "f"
    ⟨3, "h", none, 1⟩ true 9 rfl rfl).2.2

/-- C8 (code bug): `startup_scan` has no exception handling around the
inner `os.listdir(folder_path)`, so one unreadable date-pattern
subdirectory makes the whole collection loop raise: the scan aborts,
later subdirectories are never visited and even earlier results are
discarded, instead of the error being logged and skipped. -/
theorem c8_unreadable_subdir_aborts_scan :
    collectFiles "/pics"
      [⟨"2024-01-01", true, Except.ok ["a.jpg"]⟩,
       ⟨"2024-01-02", true, Except.error "Permission denied"⟩,
       ⟨"2024-01-03", true, Except.ok ["b.jpg"]⟩]
      = Except.error "Permission denied" := by
  rfl

/-- C9, counterexample to the claim as stated: with prefix `"pics"` (no
trailing separator) the uploaded key is `os.path.join`'s `"pics/a.jpg"`,
not the string concatenation `"picsa.jpg"`. -/
theorem c9_counterexample :
    s3Key "pics" "2024-01-01/a.jpg" = "pics/a.jpg" ∧
    "pics" ++ pathName "2024-01-01/a.jpg" = "picsa.jpg" ∧
    s3Key "pics" "2024-01-01/a.jpg" ≠ "pics" ++ pathName "2024-01-01/a.jpg" := by
  refine ⟨rfl, rfl, by decide⟩

/-- C9 as amended (proved): the key equals the string concatenation of the
prefix and the file's base name exactly when the configured prefix is
empty or ends with `/` (as the default `input/` does); otherwise
`os.path.join` inserts a separator. -/
theorem c9_key_prefix_concat (pfx fp : String)
    (h1 : pfx = "" ∨ pfx.toList.getLast? = some '/') :
    s3Key pfx fp = pfx ++ pathName fp := by
  unfold s3Key osPathJoin
  rw [if_neg (pathName_no_leading_slash fp), if_pos h1]

/-- Witness for C9 (amended) at the default prefix `input/`. -/
theorem c9_witness :
    s3Key "input/" "2024-01-01/a.jpg" = "input/" ++ pathName "2024-01-01/a.jpg" :=
  c9_key_prefix_concat "input/" "2024-01-01/a.jpg" (Or.inr rfl)

end PhotoSync
